import Mathlib

/-!
Verification of the filter-to-query compiler and term-suggestion aggregator
of the archelec4 frontend (src/frontend/src/layout/header.tsx, elasticsearch
client part). The TypeScript functions getESQueryFromFilter, getESQueryBody,
getESIncludeRegexp and the pure request-building / response-parsing halves of
getTerms are embedded as Lean functions below. JavaScript strings are modelled
by Lean String; optional / possibly-undefined values by Option; the
case-mapping functions (toLowerCase / toUpperCase) by Lean's Char.toLower /
Char.toUpper, which cover the basic latin range.
-/

namespace Archelec

/-- Modelled from the spec: the Wildcard Value Codec lives in
src/frontend/src/components/filters/utils, which is absent from src/.
Per the spec (section 4.1) the codec prepends a reserved marker to the raw
string; the source comment in header.tsx calls values so encoded
"special value prefixed with WILDCARD". -/
def WILDCARD_MARKER : String := "WILDCARD"

/-- Modelled from the spec: encode, prepends the reserved marker. -/
def wildcardSpecialValue (s : String) : String := WILDCARD_MARKER ++ s

/-- Modelled from the spec: isWildcard, true iff the marker is present (at the
start of the value). -/
def isWildcardSpecialValue (s : String) : Bool :=
  WILDCARD_MARKER.data.isPrefixOf s.data

/-- Modelled from the spec: decode, strips the marker. -/
def valueFromWildcardSpecialValue (s : String) : String :=
  String.mk (s.data.drop WILDCARD_MARKER.data.length)

/-- Structured Elasticsearch query fragments (QueryDslQueryContainer), with one
constructor per query shape that header.tsx builds: a bool/should disjunction,
a bool/must conjunction, a wildcard clause (with its case_insensitive flag),
a terms clause, a date-range clause (gte / lte may be absent, format is the
literal the code sends), a simple_query_string clause, and a nested clause. -/
inductive ESQuery where
  | boolShould (should : List ESQuery)
  | boolMust (must : List ESQuery)
  | wildcard (field : String) (value : String) (case_insensitive : Bool)
  | terms (field : String) (values : List String)
  | range (field : String) (gte : Option String) (lte : Option String) (format : String)
  | simple_query_string (query : String) (fields : List String)
  | nested (path : String) (query : ESQuery)

/-- Modelled from the spec: TermsFilterType (src/frontend/src/types is absent
from src/). A terms facet spec carries the ES field name, an optional ordering
("key_asc" or anything else meaning count-descending) and an optional extra
query clause (spec section 3, FieldSpec). -/
structure TermsFilterType where
  field : String
  order : Option String
  extraQueryField : Option ESQuery

/-- Modelled from the spec: a dates facet spec; the field name may be absent
(getESQueryBody tests membership of a field property in filter.spec before
using it), and an optional extra query clause. -/
structure DatesFilterType where
  field : Option String
  extraQueryField : Option ESQuery

/-- Modelled from the spec: a free-text (query) facet spec. -/
structure QueryFilterType where
  field : Option String
  extraQueryField : Option ESQuery

/-- Year-granularity bounds of a dates filter value; either bound may be
absent (an open range). -/
structure DateBounds where
  min : Option String
  max : Option String

/-- Modelled from the spec: FilterState (src/frontend/src/types is absent from
src/) is a discriminated union of the three filter entries; each entry carries
a spec of its own kind's spec type together with the kind-shaped value, so an
entry whose kind disagrees with its spec's kind is not representable (spec
section 3 invariant, section 7: such a mismatch must fail at compile time). -/
inductive FilterState where
  | terms (spec : TermsFilterType) (value : List String)
  | dates (spec : DatesFilterType) (value : DateBounds)
  | query (spec : QueryFilterType) (value : String)

/-- The discriminant of a FilterState entry (the TypeScript type tag). -/
inductive FilterKind where
  | terms
  | dates
  | query
deriving DecidableEq, Repr

/-- The type tag of an entry (filter.type in the source). -/
def FilterState.entryKind : FilterState → FilterKind
  | .terms _ _ => .terms
  | .dates _ _ => .dates
  | .query _ _ => .query

/-- The kind of the spec object an entry carries: each spec type belongs to
exactly one kind. -/
def FilterState.specKind : FilterState → FilterKind
  | .terms _ _ => .terms
  | .dates _ _ => .dates
  | .query _ _ => .query

/-- The optional field property of an entry's spec (the source tests
membership of a field property in filter.spec). -/
def FilterState.specFieldOpt : FilterState → Option String
  | .terms spec _ => some spec.field
  | .dates spec _ => spec.field
  | .query spec _ => spec.field

/-- The optional extraQueryField of an entry's spec. -/
def FilterState.extraQueryField : FilterState → Option ESQuery
  | .terms spec _ => spec.extraQueryField
  | .dates spec _ => spec.extraQueryField
  | .query spec _ => spec.extraQueryField

/-- The JavaScript expression field.split(".")[0]: the part of the string
before its first dot (the whole string when there is no dot). -/
def splitDotHead (field : String) : String :=
  String.mk (field.data.takeWhile (fun c => c ≠ '.'))

/-- The first value of the query variable in getESQueryFromFilter (header.tsx
lines 41 to 67): dispatch on the entry's type tag. A terms entry becomes a
bool/should disjunction with one branch per value, each branch a
case-insensitive wildcard clause on the raw field when the value is
wildcard-encoded and an exact terms clause on the raw field otherwise; a
dates entry becomes a range clause; a query entry becomes a
simple_query_string clause on the ocr field. -/
def getESQueryFromFilterKind (field : String) (filter : FilterState) : ESQuery :=
  match filter with
  | .terms _ value =>
      .boolShould (value.map fun v =>
        if isWildcardSpecialValue v then
          .wildcard (field ++ ".raw")
            ("*" ++ valueFromWildcardSpecialValue v ++ "*") true
        else
          .terms (field ++ ".raw") [v])
  | .dates _ value => .range field value.min value.max "yyyy"
  | .query _ value => .simple_query_string value ["ocr"]

/-- The second value of the query variable in getESQueryFromFilter (header.tsx
lines 68 to 75): intersect with the spec's extraQueryField when present. -/
def getESQueryFromFilterWithExtra (field : String) (filter : FilterState) : ESQuery :=
  match filter.extraQueryField with
  | some extra => .boolMust [getESQueryFromFilterKind field filter, extra]
  | none => getESQueryFromFilterKind field filter

/-- Embeds getESQueryFromFilter (header.tsx lines 35 to 86): build the
kind-specific clause, intersect with the extraQueryField, then wrap in a
nested clause scoped to field.split(".")[0] when the field name contains a
dot. -/
def getESQueryFromFilter (field : String) (filter : FilterState) : ESQuery :=
  if field.data.contains '.' then
    .nested (splitDotHead field) (getESQueryFromFilterWithExtra field filter)
  else
    getESQueryFromFilterWithExtra field filter

/-- The active filters: a mapping from an opaque filter key to a FilterState
entry, modelled as an association list in object-iteration order (the source
manipulates it with lodash omit / toPairs). -/
def FiltersState := List (String × FilterState)

/-- Modelled from the spec: TermsFilterState, the suggestion-override entry
shape getTerms builds (spec object of the target facet plus the list of
values; its type tag is the terms tag). -/
structure TermsFilterState where
  spec : TermsFilterType
  value : List String

/-- The field name getESQueryBody compiles an entry under: the spec's field
property when the spec object has one, otherwise the FiltersState key the
entry is stored under ("field" in filter.spec ? filter.spec.field : field). -/
def resolvedField (key : String) (filter : FilterState) : String :=
  match filter.specFieldOpt with
  | some f => f
  | none => key

/-- The list of per-entry clauses getESQueryBody assembles (header.tsx lines
89 to 100): all current filters except, when a suggestion override is
supplied, the one stored under the override's spec field (lodash omit);
then, when a suggestion override is supplied, its own clause is appended
(suggestFilter.value is a JavaScript array, which is always truthy). -/
def getESQueryBodyQueries (filters : FiltersState)
    (suggestFilter : Option TermsFilterState) : List ESQuery :=
  let contextFilters : FiltersState :=
    match suggestFilter with
    | some sf => filters.filter (fun p => p.1 ≠ sf.spec.field)
    | none => filters
  let queries :=
    if contextFilters.isEmpty then []
    else contextFilters.map (fun p => getESQueryFromFilter (resolvedField p.1 p.2) p.2)
  match suggestFilter with
  | some sf => queries ++ [getESQueryFromFilter sf.spec.field (.terms sf.spec sf.value)]
  | none => queries

/-- Embeds getESQueryBody (header.tsx lines 88 to 110): with two or more
clauses the result is a bool/must conjunction; otherwise it is queries[0],
which is the sole clause unwrapped, or undefined (none) when there is no
clause at all, letting the surrounding request mean "match everything". -/
def getESQueryBody (filters : FiltersState)
    (suggestFilter : Option TermsFilterState) : Option ESQuery :=
  let queries := getESQueryBodyQueries filters suggestFilter
  if queries.length > 1 then some (.boolMust queries) else queries.head?

/-- Embeds getESIncludeRegexp (header.tsx lines 146 to 148): lowercase the
typed text, expand every character into a two-case character class, and wrap
the concatenation with a dot-star on each side. -/
def getESIncludeRegexp (query : String) : String :=
  ".*" ++ String.join ((query.data.map Char.toLower).map fun c =>
    "[" ++ String.mk [c] ++ String.mk [c.toUpper] ++ "]") ++ ".*"

/-- Ordering of the terms aggregation: by key ascending or by count
descending. -/
inductive AggOrder where
  | keyAsc
  | countDesc
deriving DecidableEq, Repr

/-- The terms aggregation getTerms requests: field, bucket count, ordering and
optional include pattern. -/
structure TermsAgg where
  field : String
  size : Nat
  order : AggOrder
  includeRegexp : Option String

/-- The aggs clause of the suggestion request: the termsList terms aggregation
with its optional extra filter sub-aggregation, possibly wrapped in a nested
aggregation. -/
inductive Aggs where
  | termsList (terms : TermsAgg) (extraFilter : Option ESQuery)
  | nestedAgg (path : String) (inner : Aggs)

/-- The terms aggregation reached through any nested wrapping. -/
def Aggs.termsAggOf : Aggs → TermsAgg
  | .termsList t _ => t
  | .nestedAgg _ inner => inner.termsAggOf

/-- The body of the suggestion search request (size 0, base query, aggs). -/
structure SearchBody where
  size : Nat
  query : Option ESQuery
  aggs : Aggs

/-- The search context handed to getTerms: the current filters (the index and
sort only steer the transport layer). -/
structure ESSearchQueryContext where
  index : String
  filters : FiltersState

/-- Embeds the request-building half of getTerms (header.tsx lines 150 to
198): build the base query over the context's filters with a synthetic
wildcard terms-filter for the target facet injected as suggestion override
whenever the typed value is defined (value !== undefined); request the terms
aggregation on the raw field with size count-or-15 (count || 15, so a zero
count also falls back to 15), ordering per the facet's order, and an include
pattern only for a truthy (non-empty) typed value; attach the extra filter
sub-aggregation when the facet has an extraQueryField; wrap everything in a
nested aggregation when the field is dotted. -/
def getTermsSearchBody (context : ESSearchQueryContext) (filter : TermsFilterType)
    (value : Option String) (count : Option Nat) : SearchBody :=
  let field := filter.field
  let isNested := field.data.contains '.'
  let nestedPath : Option String := if isNested then some (splitDotHead field) else none
  let baseAggs : Aggs :=
    .termsList
      { field := field ++ ".raw"
        size := match count with
          | some c => if c = 0 then 15 else c
          | none => 15
        order := if filter.order = some "key_asc" then .keyAsc else .countDesc
        includeRegexp := match value with
          | some v => if v = "" then none else some (".*" ++ getESIncludeRegexp v ++ ".*")
          | none => none }
      filter.extraQueryField
  { size := 0
    query := getESQueryBody context.filters
      (value.map fun v => { spec := filter, value := [wildcardSpecialValue v] })
    aggs :=
      match nestedPath with
      | some path => .nestedAgg path baseAggs
      | none => baseAggs }

/-- One bucket of the aggregation response: the key, the raw doc_count, and
the optional extra sub-aggregation's doc_count. -/
structure Bucket where
  key : String
  doc_count : Nat
  extra : Option Nat
deriving DecidableEq, Repr

/-- A term suggestion returned to the caller. -/
structure TermCount where
  term : String
  count : Nat
deriving DecidableEq, Repr

/-- Embeds the response-parsing half of getTerms (header.tsx lines 207 to
217): map each bucket to a term/count pair, the count being the extra
sub-aggregation's doc_count when the facet has an extraQueryField and the
bucket carries the extra sub-aggregation, the raw bucket doc_count otherwise;
then keep only the pairs with a strictly positive count. -/
def getTermsParseBuckets (filter : TermsFilterType) (buckets : List Bucket) :
    List TermCount :=
  (buckets.map fun b =>
      { term := b.key
        count :=
          match filter.extraQueryField, b.extra with
          | some _, some n => n
          | _, _ => b.doc_count }).filter
    (fun t => t.count > 0)

/-! Sample filter entries used by the witness theorems. -/

/-- A plain terms facet spec on the field cat, no ordering, no extra clause. -/
def catSpec : TermsFilterType := { field := "cat", order := none, extraQueryField := none }

/-- A terms entry selecting the exact value red on the cat facet. -/
def catEntry : FilterState := .terms catSpec ["red"]

/-- A terms entry selecting the exact value blue on the cat facet. -/
def catEntryBlue : FilterState := .terms catSpec ["blue"]

/-- A dates entry bounded below by the year 2000, spec field year. -/
def yearEntry : FilterState :=
  .dates { field := some "year", extraQueryField := none }
    { min := some "2000", max := none }

/-- C1: for every FilterState, getESQueryBody obeys the clause-count rule:
with zero per-entry clauses the result is none, the request-level
"match everything" with no bool wrapper; with exactly one clause the result
is that clause unwrapped; with two or more clauses the result is the single
bool/must conjunction of all of them. -/
theorem getESQueryBody_clause_count (filters : FiltersState)
    (suggestFilter : Option TermsFilterState) :
    (getESQueryBodyQueries filters suggestFilter = [] →
      getESQueryBody filters suggestFilter = none) ∧
    (∀ q, getESQueryBodyQueries filters suggestFilter = [q] →
      getESQueryBody filters suggestFilter = some q) ∧
    (2 ≤ (getESQueryBodyQueries filters suggestFilter).length →
      getESQueryBody filters suggestFilter =
        some (.boolMust (getESQueryBodyQueries filters suggestFilter))) := by
  refine ⟨?_, ?_, ?_⟩
  · intro h
    simp [getESQueryBody, h]
  · intro q h
    simp [getESQueryBody, h]
  · intro h
    have h1 : (getESQueryBodyQueries filters suggestFilter).length > 1 := by omega
    simp [getESQueryBody, h1]

/-- Witness for C1: the clause-count rule at an empty filter state, at a
one-entry state, and at a two-entry state. -/
theorem getESQueryBody_clause_count_witness :
    getESQueryBody [] none = none ∧
    getESQueryBody [("cat", catEntry)] none =
      some (getESQueryFromFilter "cat" catEntry) ∧
    getESQueryBody [("cat", catEntry), ("year", yearEntry)] none =
      some (.boolMust (getESQueryBodyQueries
        [("cat", catEntry), ("year", yearEntry)] none)) :=
  ⟨(getESQueryBody_clause_count [] none).1 rfl,
   (getESQueryBody_clause_count [("cat", catEntry)] none).2.1 _ rfl,
   (getESQueryBody_clause_count [("cat", catEntry), ("year", yearEntry)] none).2.2
     (by decide)⟩

/-- C9: the field name an entry is compiled under is the spec's field
property when the spec object carries one, and otherwise the FiltersState
key the entry is stored under; getESQueryBody compiles each entry under
that resolved name. -/
theorem getESQueryBody_resolved_field (key : String) (filter : FilterState) :
    getESQueryBody [(key, filter)] none =
      some (getESQueryFromFilter (resolvedField key filter) filter) ∧
    (∀ f, filter.specFieldOpt = some f → resolvedField key filter = f) ∧
    (filter.specFieldOpt = none → resolvedField key filter = key) := by
  refine ⟨rfl, ?_, ?_⟩
  · intro f h
    simp [resolvedField, h]
  · intro h
    simp [resolvedField, h]

/-- Witness for C9: a terms entry whose spec names the field f is compiled
under f even when stored under another key, and a dates entry whose spec has
no field property is compiled under its storage key. -/
theorem getESQueryBody_resolved_field_witness :
    resolvedField "someKey" catEntry = "cat" ∧
    resolvedField "year" (.dates { field := none, extraQueryField := none }
      { min := some "2000", max := none }) = "year" ∧
    getESQueryBody [("someKey", catEntry)] none =
      some (getESQueryFromFilter "cat" catEntry) :=
  ⟨(getESQueryBody_resolved_field "someKey" catEntry).2.1 "cat" rfl,
   (getESQueryBody_resolved_field "year"
      (.dates { field := none, extraQueryField := none }
        { min := some "2000", max := none })).2.2 rfl,
   (getESQueryBody_resolved_field "someKey" catEntry).1⟩

/-- C2: the base query for a facet's term suggestions does not depend on that
facet's own filter entry: two filter states agreeing outside the key of the
suggestion facet yield the same suggestion base query; and every remaining
facet's compiled clause stays among the base query's AND clauses. -/
theorem suggestion_base_noninterference (filters1 filters2 : FiltersState)
    (sug : TermsFilterState)
    (h : filters1.filter (fun p => p.1 ≠ sug.spec.field) =
      filters2.filter (fun p => p.1 ≠ sug.spec.field)) :
    getESQueryBody filters1 (some sug) = getESQueryBody filters2 (some sug) ∧
    ∀ p ∈ filters1.filter (fun p => p.1 ≠ sug.spec.field),
      getESQueryFromFilter (resolvedField p.1 p.2) p.2 ∈
        getESQueryBodyQueries filters1 (some sug) := by
  have hq : getESQueryBodyQueries filters1 (some sug) =
      getESQueryBodyQueries filters2 (some sug) := by
    simp only [getESQueryBodyQueries, h]
  refine ⟨by simp only [getESQueryBody, hq], ?_⟩
  intro p hp
  simp only [getESQueryBodyQueries]
  apply List.mem_append_left
  have hne : (filters1.filter (fun p => p.1 ≠ sug.spec.field)).isEmpty = false := by
    cases hl : filters1.filter (fun p => p.1 ≠ sug.spec.field) with
    | nil => rw [hl] at hp; cases hp
    | cons a l => rfl
  rw [hne]
  simp only [Bool.false_eq_true, if_false]
  exact List.mem_map_of_mem _ hp

/-- Witness for C2: changing the cat facet's own selection from red to blue
leaves the suggestion base query for cat unchanged, and the year facet's
clause remains among the base clauses. -/
theorem suggestion_base_noninterference_witness :
    getESQueryBody [("cat", catEntry), ("year", yearEntry)]
        (some { spec := catSpec, value := [wildcardSpecialValue "re"] }) =
      getESQueryBody [("cat", catEntryBlue), ("year", yearEntry)]
        (some { spec := catSpec, value := [wildcardSpecialValue "re"] }) ∧
    getESQueryFromFilter (resolvedField "year" yearEntry) yearEntry ∈
      getESQueryBodyQueries [("cat", catEntry), ("year", yearEntry)]
        (some { spec := catSpec, value := [wildcardSpecialValue "re"] }) := by
  have h := suggestion_base_noninterference
    [("cat", catEntry), ("year", yearEntry)]
    [("cat", catEntryBlue), ("year", yearEntry)]
    { spec := catSpec, value := [wildcardSpecialValue "re"] } rfl
  exact ⟨h.1, h.2 ("year", yearEntry) (by simp [catSpec, catEntry, yearEntry])⟩

/-- C3: a terms entry compiles to a bool/should disjunction with exactly one
branch per value; a wildcard-encoded value yields a case-insensitive wildcard
clause star-decoded-star on the raw field, and never an exact terms clause,
while every other value yields an exact terms clause on the same raw field.
The nested and extra-clause wrappings are absent here (no dot in the field,
no extraQueryField) so the disjunction is the whole compiled clause. -/
theorem terms_filter_disjunction (field : String) (spec : TermsFilterType)
    (values : List String)
    (h1 : spec.extraQueryField = none)
    (h2 : field.data.contains '.' = false) :
    ∃ branches : List ESQuery,
      getESQueryFromFilter field (.terms spec values) = .boolShould branches ∧
      branches.length = values.length ∧
      ∀ i, i < values.length →
        (isWildcardSpecialValue (values.getD i "") = true →
          branches.getD i (.boolShould []) =
            .wildcard (field ++ ".raw")
              ("*" ++ valueFromWildcardSpecialValue (values.getD i "") ++ "*") true ∧
          ∀ f2 vs, branches.getD i (.boolShould []) ≠ .terms f2 vs) ∧
        (isWildcardSpecialValue (values.getD i "") = false →
          branches.getD i (.boolShould []) =
            .terms (field ++ ".raw") [values.getD i ""]) := by
  refine ⟨values.map (fun v =>
      if isWildcardSpecialValue v then
        .wildcard (field ++ ".raw")
          ("*" ++ valueFromWildcardSpecialValue v ++ "*") true
      else .terms (field ++ ".raw") [v]), ?_, by simp, ?_⟩
  · unfold getESQueryFromFilter
    rw [if_neg (by simp only [h2]; exact Bool.false_ne_true)]
    simp [getESQueryFromFilterWithExtra, FilterState.extraQueryField, h1,
      getESQueryFromFilterKind]
  · intro i hi
    simp only [List.getD_eq_getElem?_getD, List.getElem?_map,
      List.getElem?_eq_getElem hi, Option.map_some', Option.getD_some]
    constructor
    · intro hw
      refine ⟨by rw [if_pos hw], ?_⟩
      intro f2 vs heq
      rw [if_pos hw] at heq
      exact ESQuery.noConfusion heq
    · intro hw
      simp [hw]

/-- Witness for C3: on the cat facet with a wildcard-encoded value fo and a
plain value red, the compiled clause is a two-branch disjunction whose first
branch is the case-insensitive wildcard clause and whose second branch is the
exact terms clause. -/
theorem terms_filter_disjunction_witness :
    ∃ branches : List ESQuery,
      getESQueryFromFilter "cat"
          (.terms catSpec [wildcardSpecialValue "fo", "red"]) =
        .boolShould branches ∧
      branches.length = [wildcardSpecialValue "fo", "red"].length ∧
      ∀ i, i < [wildcardSpecialValue "fo", "red"].length →
        (isWildcardSpecialValue ([wildcardSpecialValue "fo", "red"].getD i "") = true →
          branches.getD i (.boolShould []) =
            .wildcard ("cat" ++ ".raw")
              ("*" ++ valueFromWildcardSpecialValue
                ([wildcardSpecialValue "fo", "red"].getD i "") ++ "*") true ∧
          ∀ f2 vs, branches.getD i (.boolShould []) ≠ .terms f2 vs) ∧
        (isWildcardSpecialValue ([wildcardSpecialValue "fo", "red"].getD i "") = false →
          branches.getD i (.boolShould []) =
            .terms ("cat" ++ ".raw") [[wildcardSpecialValue "fo", "red"].getD i ""]) :=
  terms_filter_disjunction "cat" catSpec [wildcardSpecialValue "fo", "red"] rfl rfl

/-- Decomposition of a character list at its first dot: the part before the
first dot, the dot, and the rest; the part before the first dot holds no
dot. -/
theorem takeWhile_first_dot (l : List Char) (h : '.' ∈ l) :
    (∃ rest, l = l.takeWhile (fun c => c ≠ '.') ++ '.' :: rest) ∧
      '.' ∉ l.takeWhile (fun c => c ≠ '.') := by
  induction l with
  | nil => cases h
  | cons a l ih =>
    by_cases ha : a = '.'
    · subst ha
      refine ⟨⟨l, ?_⟩, ?_⟩ <;> simp [List.takeWhile_cons]
    · have h' : '.' ∈ l := by
        rcases List.mem_cons.mp h with h | h
        · exact absurd h.symm ha
        · exact h
      obtain ⟨⟨rest, hr⟩, hn⟩ := ih h'
      have hpa : (fun c => decide (c ≠ '.')) a = true := by simp [ha]
      refine ⟨⟨rest, ?_⟩, ?_⟩
      · rw [List.takeWhile_cons, if_pos hpa, List.cons_append]
        exact congrArg (a :: ·) hr
      · rw [List.takeWhile_cons, if_pos hpa]
        intro hdot
        rcases List.mem_cons.mp hdot with hd | hd
        · exact ha hd.symm
        · exact hn hd

/-- A sample terms facet spec on the dotted field person.name carrying an
extra query clause. -/
def personSpec : TermsFilterType :=
  { field := "person.name", order := none,
    extraQueryField := some (.terms "kind" ["x"]) }

/-- A terms entry on the person.name facet selecting the exact value red. -/
def personEntry : FilterState := .terms personSpec ["red"]

/-- C5: a dotted field name always wraps the compiled per-entry clause in a
nested query scoped to the part of the field name before its first dot, and
the nested wrapping is applied after the extraQueryField intersection, so a
configured extra clause sits inside the nested scope. -/
theorem nested_field_wrapping (field : String) (filter : FilterState)
    (h : field.data.contains '.' = true) :
    getESQueryFromFilter field filter =
      .nested (splitDotHead field) (getESQueryFromFilterWithExtra field filter) ∧
    (∀ e, filter.extraQueryField = some e →
      getESQueryFromFilterWithExtra field filter =
        .boolMust [getESQueryFromFilterKind field filter, e]) ∧
    (∃ rest, field.data = (splitDotHead field).data ++ '.' :: rest) ∧
    '.' ∉ (splitDotHead field).data := by
  have hmem : '.' ∈ field.data := List.elem_iff.mp h
  obtain ⟨⟨rest, hr⟩, hn⟩ := takeWhile_first_dot field.data hmem
  refine ⟨?_, ?_, ⟨rest, hr⟩, hn⟩
  · unfold getESQueryFromFilter
    rw [if_pos h]
  · intro e he
    simp [getESQueryFromFilterWithExtra, he]

/-- Witness for C5: the dotted field person.name with a terms entry carrying
an extra clause compiles to a nested query scoped to person whose inner
clause intersects the disjunction with the extra clause. -/
theorem nested_field_wrapping_witness :
    getESQueryFromFilter "person.name" personEntry =
      .nested (splitDotHead "person.name")
        (getESQueryFromFilterWithExtra "person.name" personEntry) ∧
    getESQueryFromFilterWithExtra "person.name" personEntry =
      .boolMust [getESQueryFromFilterKind "person.name" personEntry,
        .terms "kind" ["x"]] := by
  have h := nested_field_wrapping "person.name" personEntry rfl
  exact ⟨h.1, h.2.1 (.terms "kind" ["x"]) rfl⟩

/-- The kind of clause a compiled per-entry query is: a bool/should
disjunction is the terms shape, a range clause the dates shape, a
simple_query_string clause the query shape. -/
def shapeKind : ESQuery → Option FilterKind
  | .boolShould _ => some .terms
  | .range _ _ _ _ => some .dates
  | .simple_query_string _ _ => some .query
  | _ => none

/-- C6: an entry whose type tag disagrees with its spec's kind is not
representable: every FilterState entry's type tag equals its spec's kind
(the union ties each tag to the spec type of the same kind, so a mismatch is
rejected when the program is type-checked, before any query is compiled),
and compilation dispatches on that tag to a clause whose shape is the one of
the spec's kind, never an empty or wrong clause. -/
theorem filter_kind_consistency (filter : FilterState) :
    filter.entryKind = filter.specKind ∧
    ∀ field, shapeKind (getESQueryFromFilterKind field filter) =
      some filter.specKind := by
  cases filter <;>
    simp [FilterState.entryKind, FilterState.specKind, shapeKind,
      getESQueryFromFilterKind]

/-- C10: the requested bucket count of the suggestion aggregation is the
caller-supplied count when it is defined and non-zero, and falls back to 15
both when the count is absent and when it is 0 (count || 15 treats 0 as
falsy), so no request ever asks for zero buckets. -/
theorem terms_agg_size_fallback (context : ESSearchQueryContext)
    (filter : TermsFilterType) (value : Option String) (count : Option Nat) :
    (∀ c, count = some c → c ≠ 0 →
      ((getTermsSearchBody context filter value count).aggs.termsAggOf).size = c) ∧
    ((count = none ∨ count = some 0) →
      ((getTermsSearchBody context filter value count).aggs.termsAggOf).size = 15) ∧
    0 < ((getTermsSearchBody context filter value count).aggs.termsAggOf).size := by
  have hsize : ((getTermsSearchBody context filter value count).aggs.termsAggOf).size =
      (match count with | some c => if c = 0 then 15 else c | none => 15) := by
    unfold getTermsSearchBody
    by_cases hd : '.' ∈ filter.field.data <;> simp [hd, Aggs.termsAggOf]
  refine ⟨?_, ?_, ?_⟩
  · intro c hc hne
    rw [hsize, hc]
    simp [hne]
  · intro hc
    rcases hc with hc | hc
    · rw [hsize, hc]
    · rw [hsize, hc]
      rfl
  · rw [hsize]
    cases count with
    | none => simp
    | some c =>
      by_cases hc : c = 0 <;> simp [hc]
      omega

/-- Witness for C10: the bucket count is 10 for a supplied count of 10, and
15 for a supplied count of 0 as well as for an absent count. -/
theorem terms_agg_size_fallback_witness :
    ((getTermsSearchBody ⟨"idx", []⟩ catSpec none (some 10)).aggs.termsAggOf).size = 10 ∧
    ((getTermsSearchBody ⟨"idx", []⟩ catSpec none (some 0)).aggs.termsAggOf).size = 15 ∧
    ((getTermsSearchBody ⟨"idx", []⟩ catSpec none none).aggs.termsAggOf).size = 15 :=
  ⟨(terms_agg_size_fallback ⟨"idx", []⟩ catSpec none (some 10)).1 10 rfl (by decide),
   (terms_agg_size_fallback ⟨"idx", []⟩ catSpec none (some 0)).2.1 (Or.inr rfl),
   (terms_agg_size_fallback ⟨"idx", []⟩ catSpec none none).2.1 (Or.inl rfl)⟩

/-- When the facet has an extraQueryField and every bucket carries the extra
sub-aggregation, the parsed suggestions are exactly the buckets with a
positive extra count, reported with the extra count. -/
theorem parseBuckets_extra_eq (filter : TermsFilterType) (e : ESQuery)
    (hx : filter.extraQueryField = some e) :
    ∀ buckets : List Bucket, (∀ b ∈ buckets, b.extra.isSome = true) →
      getTermsParseBuckets filter buckets =
        (buckets.filter (fun b => 0 < b.extra.getD 0)).map
          (fun b => { term := b.key, count := b.extra.getD 0 })
  | [], _ => rfl
  | b :: l, hall => by
    obtain ⟨n, hn⟩ :=
      Option.isSome_iff_exists.mp (hall b (List.mem_cons_self b l))
    have ihl := parseBuckets_extra_eq filter e hx l
      (fun x hx2 => hall x (List.mem_cons_of_mem b hx2))
    simp only [getTermsParseBuckets] at ihl ⊢
    simp only [hx] at ihl ⊢
    simp only [List.map_cons, List.filter_cons, hn, Option.getD_some]
    by_cases hp : 0 < n
    · simp [hp, hn, ihl]
    · simp [hp, hn, ihl]

/-- C8: when the facet has an extraQueryField, each suggestion's reported
count is the extra sub-aggregation's doc_count instead of the raw bucket
doc_count, and every zero-count pair is filtered out of the returned list. -/
theorem suggestion_counts_from_extra (filter : TermsFilterType) (e : ESQuery)
    (hx : filter.extraQueryField = some e) (buckets : List Bucket)
    (hall : ∀ b ∈ buckets, b.extra.isSome = true) :
    getTermsParseBuckets filter buckets =
      (buckets.filter (fun b => 0 < b.extra.getD 0)).map
        (fun b => { term := b.key, count := b.extra.getD 0 }) ∧
    ∀ t ∈ getTermsParseBuckets filter buckets, t.count ≠ 0 := by
  refine ⟨parseBuckets_extra_eq filter e hx buckets hall, ?_⟩
  intro t ht
  unfold getTermsParseBuckets at ht
  have hmem := (List.mem_filter.mp ht).2
  have := of_decide_eq_true hmem
  omega

/-- Witness for C8: with an extraQueryField configured, a bucket with raw
count 5 and extra count 2 is reported with count 2, and a bucket whose extra
count is 0 is dropped. -/
theorem suggestion_counts_from_extra_witness :
    getTermsParseBuckets
        { field := "cat", order := none, extraQueryField := some (.terms "kind" ["x"]) }
        [{ key := "a", doc_count := 5, extra := some 2 },
         { key := "b", doc_count := 3, extra := some 0 }] =
      [{ term := "a", count := 2 }] ∧
    ∀ t ∈ getTermsParseBuckets
        { field := "cat", order := none, extraQueryField := some (.terms "kind" ["x"]) }
        [{ key := "a", doc_count := 5, extra := some 2 },
         { key := "b", doc_count := 3, extra := some 0 }], t.count ≠ 0 := by
  have h := suggestion_counts_from_extra
    { field := "cat", order := none, extraQueryField := some (.terms "kind" ["x"]) }
    (.terms "kind" ["x"]) rfl
    [{ key := "a", doc_count := 5, extra := some 2 },
     { key := "b", doc_count := 3, extra := some 0 }]
    (by decide)
  exact ⟨h.1.trans (by decide), h.2⟩

/-- Counterexample for C4: with an empty typed string the synthetic wildcard
override IS injected (value !== undefined holds for the empty string), so
the base query differs from the unconstrained query, contradicting the claim
that an empty typed string leaves the base query unconstrained. -/
theorem empty_typed_value_still_overrides :
    (getTermsSearchBody ⟨"idx", []⟩ catSpec (some "") none).query ≠
      getESQueryBody ([] : FiltersState) none := by
  intro hcontra
  have h2 : ((getTermsSearchBody ⟨"idx", []⟩ catSpec (some "") none).query).isSome
      = true := rfl
  rw [hcontra] at h2
  exact Bool.noConfusion h2

/-- C4 as amended: the synthetic wildcard terms-filter for the target facet
is injected as suggestion override exactly when the typed string is defined
(value !== undefined), including when it is empty; only an absent typed
string leaves the base query unconstrained. The injected override appends
its own compiled clause to the base query's clause list, and its value is
always wildcard-encoded. -/
theorem suggestion_override_iff_defined (context : ESSearchQueryContext)
    (filter : TermsFilterType) (value : Option String) (count : Option Nat) :
    (∀ v, value = some v →
      (getTermsSearchBody context filter value count).query =
        getESQueryBody context.filters
          (some { spec := filter, value := [wildcardSpecialValue v] })) ∧
    (∀ v, ∃ qs,
      getESQueryBodyQueries context.filters
          (some { spec := filter, value := [wildcardSpecialValue v] }) =
        qs ++ [getESQueryFromFilter filter.field
          (.terms filter [wildcardSpecialValue v])]) ∧
    (∀ v, isWildcardSpecialValue (wildcardSpecialValue v) = true) ∧
    (value = none →
      (getTermsSearchBody context filter value count).query =
        getESQueryBody context.filters none) := by
  refine ⟨?_, ?_, ?_, ?_⟩
  · intro v hv
    subst hv
    rfl
  · intro v
    simp only [getESQueryBodyQueries]
    exact ⟨_, rfl⟩
  · intro v
    simp only [isWildcardSpecialValue, wildcardSpecialValue, String.data_append]
    exact List.isPrefixOf_iff_prefix.mpr (List.prefix_append _ _)
  · intro hv
    subst hv
    rfl

/-- Witness for the amended C4: with the empty typed string the override is
injected (and is wildcard-encoded); with an absent typed string the base
query is the unconstrained one. -/
theorem suggestion_override_iff_defined_witness :
    (getTermsSearchBody ⟨"idx", []⟩ catSpec (some "") none).query =
      getESQueryBody []
        (some { spec := catSpec, value := [wildcardSpecialValue ""] }) ∧
    isWildcardSpecialValue (wildcardSpecialValue "") = true ∧
    (getTermsSearchBody ⟨"idx", []⟩ catSpec none none).query =
      getESQueryBody [] none := by
  have h1 := suggestion_override_iff_defined ⟨"idx", []⟩ catSpec (some "") none
  have h2 := suggestion_override_iff_defined ⟨"idx", []⟩ catSpec none none
  exact ⟨h1.1 "" rfl, h1.2.2.1 "", h2.2.2.2 rfl⟩

/-! Semantics of the include pattern (C7). The search engine interprets the
include property of a terms aggregation as a regular expression over the
candidate values; the pattern getESIncludeRegexp emits uses only dot-star
and two-character classes, so that fragment's standard regular-expression
semantics is modelled here. -/

/-- The regular-expression fragment the include pattern lives in: the empty
pattern, dot-star, a two-character class, and sequencing. -/
inductive RE where
  | eps
  | anyStar
  | cls (a b : Char)
  | seq (r1 r2 : RE)

/-- All decompositions of a character list into a front part and a back
part, in order. -/
def splits : List Char → List (List Char × List Char)
  | [] => [([], [])]
  | c :: cs => ([], c :: cs) :: (splits cs).map (fun p => (c :: p.1, p.2))

/-- Matching a character list against the fragment: the empty pattern
matches only the empty list, dot-star matches everything, a class matches a
single character equal to one of its two characters, and a sequence matches
when some decomposition matches its two parts. -/
def rmatch : RE → List Char → Bool
  | .eps, s => s.isEmpty
  | .anyStar, _ => true
  | .cls a b, s =>
      match s with
      | [d] => d = a || d = b
      | _ => false
  | .seq r1 r2, s => (splits s).any (fun p => rmatch r1 p.1 && rmatch r2 p.2)

/-- Reading the emitted pattern back into the fragment: dot-stars and
bracketed two-character classes, sequenced left to right. -/
def parseRE : List Char → Option RE
  | [] => some .eps
  | '.' :: '*' :: rest => (parseRE rest).map (.seq .anyStar)
  | '[' :: a :: b :: ']' :: rest => (parseRE rest).map (.seq (.cls a b))
  | _ => none

/-- The character-class section of the include pattern for the given
(already lowercased) characters: one bracketed two-case class per
character. -/
def classChars : List Char → List Char
  | [] => []
  | c :: cs => '[' :: c :: c.toUpper :: ']' :: classChars cs

/-- The regular expression of the class section followed by the closing
dot-star. -/
def classesRE : List Char → RE
  | [] => .seq .anyStar .eps
  | c :: cs => .seq (.cls c c.toUpper) (classesRE cs)

/-- Case-insensitive containment: some contiguous slice of the text
lowercases to the lowercased query (the spec's case-insensitive contains
test, with the same basic-latin case mapping as the embedding). -/
def ciContains (query text : String) : Prop :=
  ∃ l m r, text.data = l ++ m ++ r ∧
    m.map Char.toLower = query.data.map Char.toLower

/-- A pair is a split of a list exactly when the list is the concatenation
of its parts. -/
theorem mem_splits_iff : ∀ (s : List Char) (p : List Char × List Char),
    p ∈ splits s ↔ s = p.1 ++ p.2
  | [], p => by
    cases p with
    | mk l m =>
      simp only [splits, List.mem_singleton, Prod.mk.injEq]
      constructor
      · rintro ⟨h1, h2⟩
        rw [h1, h2]
        rfl
      · intro h
        have := List.append_eq_nil.mp h.symm
        exact ⟨this.1.symm ▸ rfl, this.2.symm ▸ rfl⟩
  | c :: cs, p => by
    cases p with
    | mk l m =>
      simp only [splits, List.mem_cons, List.mem_map, Prod.mk.injEq]
      constructor
      · rintro (⟨h1, h2⟩ | ⟨q, hq, hq1, hq2⟩)
        · rw [h1, h2]
          rfl
        · have hcs := (mem_splits_iff cs q).mp hq
          subst hq1
          subst hq2
          rw [List.cons_append, ← hcs]
      · intro h
        cases l with
        | nil => exact Or.inl ⟨rfl, by simpa using h.symm⟩
        | cons a l' =>
          rw [List.cons_append] at h
          injection h with h1 h2
          subst h1
          exact Or.inr ⟨(l', m), (mem_splits_iff cs (l', m)).mpr h2, rfl, rfl⟩

/-- A sequence matches exactly when some decomposition matches its parts. -/
theorem rmatch_seq_iff (r1 r2 : RE) (s : List Char) :
    rmatch (.seq r1 r2) s = true ↔
      ∃ u v, s = u ++ v ∧ rmatch r1 u = true ∧ rmatch r2 v = true := by
  simp only [rmatch, List.any_eq_true, Bool.and_eq_true]
  constructor
  · rintro ⟨p, hp, h1, h2⟩
    exact ⟨p.1, p.2, (mem_splits_iff s p).mp hp, h1, h2⟩
  · rintro ⟨u, v, hs, h1, h2⟩
    exact ⟨(u, v), (mem_splits_iff s (u, v)).mpr hs, h1, h2⟩

/-- A two-character class matches exactly the one-character lists made of
one of its two characters. -/
theorem rmatch_cls_iff (a b : Char) (u : List Char) :
    rmatch (.cls a b) u = true ↔ ∃ d, u = [d] ∧ (d = a ∨ d = b) := by
  cases u with
  | nil => simp [rmatch]
  | cons d u' =>
    cases u' with
    | nil => simp [rmatch]
    | cons e u'' => simp [rmatch]

/-- The emitted class section followed by dot-star parses back to its
regular expression. -/
theorem parseRE_classChars : ∀ cs : List Char,
    parseRE (classChars cs ++ ['.', '*']) = some (classesRE cs)
  | [] => rfl
  | c :: cs => by
    have h1 : classChars (c :: cs) ++ ['.', '*'] =
        '[' :: c :: c.toUpper :: ']' :: (classChars cs ++ ['.', '*']) := rfl
    have h2 : parseRE ('[' :: c :: c.toUpper :: ']' :: (classChars cs ++ ['.', '*'])) =
        (parseRE (classChars cs ++ ['.', '*'])).map (.seq (.cls c c.toUpper)) := rfl
    rw [h1, h2, parseRE_classChars cs, Option.map_some']
    rfl

/-- The include pattern is the two-case class expansion of the lowercased
typed text wrapped by a dot-star on each side. -/
theorem data_getESIncludeRegexp (q : String) :
    (getESIncludeRegexp q).data =
      '.' :: '*' :: (classChars (q.data.map Char.toLower) ++ ['.', '*']) := by
  unfold getESIncludeRegexp
  simp only [String.data_append, String.data_join]
  have h : ∀ cs : List Char,
      (((cs.map fun c => "[" ++ String.mk [c] ++ String.mk [c.toUpper] ++ "]")).map
        String.data).flatten = classChars cs := by
    intro cs
    induction cs with
    | nil => rfl
    | cons c cs ih =>
      simp only [List.map_cons, List.flatten_cons, ih, String.data_append,
        classChars]
      rfl
  rw [h]
  rfl

/-- The full include pattern parses to dot-star followed by the class
section's regular expression. -/
theorem parseRE_include (q : String) :
    parseRE (getESIncludeRegexp q).data =
      some (.seq .anyStar (classesRE (q.data.map Char.toLower))) := by
  rw [data_getESIncludeRegexp]
  have : parseRE ('.' :: '*' :: (classChars (q.data.map Char.toLower) ++ ['.', '*'])) =
      (parseRE (classChars (q.data.map Char.toLower) ++ ['.', '*'])).map
        (.seq .anyStar) := rfl
  rw [this, parseRE_classChars, Option.map_some']

/-- Two characters are equal exactly when their codepoints are. -/
theorem char_eq_iff_toNat (a b : Char) : a = b ↔ a.toNat = b.toNat := by
  constructor
  · intro h
    rw [h]
  · intro h
    exact Char.eq_of_val_eq (UInt32.ext h)

/-- The codepoint of Char.ofNat at a valid codepoint. -/
theorem toNat_ofNat_valid (n : Nat) (h : n.isValidChar) :
    (Char.ofNat n).toNat = n := by
  have heq : Char.ofNat n = Char.ofNatAux n h := dif_pos h
  rw [heq]
  rfl

/-- The codepoint of the lowercased character, as arithmetic on the
original codepoint. -/
theorem toNat_toLower (c : Char) :
    c.toLower.toNat = if 65 ≤ c.toNat ∧ c.toNat ≤ 90 then c.toNat + 32 else c.toNat := by
  show (if c.toNat ≥ 65 ∧ c.toNat ≤ 90 then Char.ofNat (c.toNat + 32) else c).toNat =
    if 65 ≤ c.toNat ∧ c.toNat ≤ 90 then c.toNat + 32 else c.toNat
  by_cases h : 65 ≤ c.toNat ∧ c.toNat ≤ 90
  · have hg : c.toNat ≥ 65 ∧ c.toNat ≤ 90 := h
    rw [if_pos hg, if_pos h, toNat_ofNat_valid _ (Or.inl (by omega))]
  · have hg : ¬(c.toNat ≥ 65 ∧ c.toNat ≤ 90) := h
    rw [if_neg hg, if_neg h]

/-- The codepoint of the uppercased character, as arithmetic on the
original codepoint. -/
theorem toNat_toUpper (c : Char) :
    c.toUpper.toNat = if 97 ≤ c.toNat ∧ c.toNat ≤ 122 then c.toNat - 32 else c.toNat := by
  show (if c.toNat ≥ 97 ∧ c.toNat ≤ 122 then Char.ofNat (c.toNat - 32) else c).toNat =
    if 97 ≤ c.toNat ∧ c.toNat ≤ 122 then c.toNat - 32 else c.toNat
  by_cases h : 97 ≤ c.toNat ∧ c.toNat ≤ 122
  · have hg : c.toNat ≥ 97 ∧ c.toNat ≤ 122 := h
    rw [if_pos hg, if_pos h, toNat_ofNat_valid _ (Or.inl (by omega))]
  · have hg : ¬(c.toNat ≥ 97 ∧ c.toNat ≤ 122) := h
    rw [if_neg hg, if_neg h]

/-- A character is one of the two characters of the class generated for x
exactly when it lowercases to x's lowercase: the two-case class test is the
case-insensitive equality test. -/
theorem class_mem_iff_toLower_eq (x d : Char) :
    (d = x.toLower ∨ d = x.toLower.toUpper) ↔ d.toLower = x.toLower := by
  rw [char_eq_iff_toNat d x.toLower, char_eq_iff_toNat d x.toLower.toUpper,
    char_eq_iff_toNat d.toLower x.toLower, toNat_toUpper, toNat_toLower d,
    toNat_toLower x]
  split_ifs <;> omega

/-- Pointwise class matching of the lowercased query characters is exactly
agreement of the lowercased lists. -/
theorem forall₂_class_iff : ∀ (xs m : List Char),
    List.Forall₂ (fun c d => d = c ∨ d = c.toUpper) (xs.map Char.toLower) m ↔
      m.map Char.toLower = xs.map Char.toLower
  | [], m => by
    simp [List.forall₂_nil_left_iff, List.map_eq_nil_iff]
  | x :: xs, m => by
    cases m with
    | nil =>
      simp [List.forall₂_nil_right_iff]
    | cons d m' =>
      simp only [List.map_cons, List.forall₂_cons, List.cons.injEq]
      rw [forall₂_class_iff xs m', class_mem_iff_toLower_eq x d]

/-- The class section's regular expression matches exactly the lists whose
front part matches the classes pointwise (anything may follow, thanks to
the closing dot-star). -/
theorem rmatch_classesRE : ∀ (cs s : List Char),
    rmatch (classesRE cs) s = true ↔
      ∃ m r, s = m ++ r ∧ List.Forall₂ (fun c d => d = c ∨ d = c.toUpper) cs m
  | [], s => by
    simp only [classesRE, rmatch_seq_iff]
    constructor
    · intro _
      exact ⟨[], s, rfl, List.Forall₂.nil⟩
    · intro _
      refine ⟨s, [], (List.append_nil s).symm, rfl, rfl⟩
  | c :: cs, s => by
    simp only [classesRE, rmatch_seq_iff]
    constructor
    · rintro ⟨u, v, hs, h1, h2⟩
      obtain ⟨d, hu, hd⟩ := (rmatch_cls_iff c c.toUpper u).mp h1
      obtain ⟨m, r, hv, hf⟩ := (rmatch_classesRE cs v).mp h2
      refine ⟨d :: m, r, ?_, List.Forall₂.cons hd hf⟩
      rw [hs, hu, hv]
      rfl
    · rintro ⟨m, r, hs, hf⟩
      cases hf with
      | cons hd htl =>
        rename_i d m'
        refine ⟨[d], m' ++ r, by rw [hs]; rfl,
          (rmatch_cls_iff c c.toUpper [d]).mpr ⟨d, rfl, hd⟩,
          (rmatch_classesRE cs (m' ++ r)).mpr ⟨m', r, rfl, htl⟩⟩

/-- C7: the include pattern getESIncludeRegexp emits is the two-case class
expansion of the lowercased typed text wrapped by a dot-star on each side,
and its regular-expression semantics is exactly the case-insensitive
contains test; in particular the pattern for Ab matches ab, AB, aB and Ab
and rejects cd. -/
theorem include_regexp_ci_contains :
    (∀ q : String, (getESIncludeRegexp q).data =
      '.' :: '*' :: (classChars (q.data.map Char.toLower) ++ ['.', '*'])) ∧
    (∀ q t : String,
      ∃ r, parseRE (getESIncludeRegexp q).data = some r ∧
        (rmatch r t.data = true ↔ ciContains q t)) ∧
    (∃ r, parseRE (getESIncludeRegexp "Ab").data = some r ∧
      rmatch r "ab".data = true ∧ rmatch r "AB".data = true ∧
      rmatch r "aB".data = true ∧ rmatch r "Ab".data = true ∧
      rmatch r "cd".data = false) := by
  refine ⟨data_getESIncludeRegexp, ?_, ?_⟩
  · intro q t
    refine ⟨_, parseRE_include q, ?_⟩
    rw [rmatch_seq_iff]
    constructor
    · rintro ⟨u, v, hs, _, h2⟩
      obtain ⟨m, r', hv, hf⟩ := (rmatch_classesRE _ v).mp h2
      refine ⟨u, m, r', ?_, (forall₂_class_iff q.data m).mp hf⟩
      rw [hs, hv, List.append_assoc]
    · rintro ⟨l, m, r', ht, hmap⟩
      refine ⟨l, m ++ r', ?_, rfl, (rmatch_classesRE _ (m ++ r')).mpr
        ⟨m, r', rfl, (forall₂_class_iff q.data m).mpr hmap⟩⟩
      rw [ht, List.append_assoc]
  · refine ⟨.seq .anyStar (classesRE ['a', 'b']), ?_, ?_, ?_, ?_, ?_, ?_⟩
    · exact parseRE_include "Ab"
    · decide
    · decide
    · decide
    · decide
    · decide

/-- Witness for C7: the pattern semantics applied at the typed text Ab and
the candidate value aB yields the case-insensitive containment, and rules
it out for cd. -/
theorem include_regexp_ci_contains_witness :
    ciContains "Ab" "aB" ∧ ¬ciContains "Ab" "cd" := by
  obtain ⟨r1, hp1, hiff1⟩ := include_regexp_ci_contains.2.1 "Ab" "aB"
  obtain ⟨r2, hp2, hiff2⟩ := include_regexp_ci_contains.2.1 "Ab" "cd"
  have he1 : r1 = .seq .anyStar (classesRE ['a', 'b']) := by
    have h0 : parseRE (getESIncludeRegexp "Ab").data =
        some (.seq .anyStar (classesRE ['a', 'b'])) := parseRE_include "Ab"
    rw [hp1] at h0
    exact Option.some.inj h0
  have he2 : r2 = .seq .anyStar (classesRE ['a', 'b']) := by
    have h0 : parseRE (getESIncludeRegexp "Ab").data =
        some (.seq .anyStar (classesRE ['a', 'b'])) := parseRE_include "Ab"
    rw [hp2] at h0
    exact Option.some.inj h0
  subst he1
  subst he2
  constructor
  · exact hiff1.mp (by decide)
  · intro hc
    have := hiff2.mpr hc
    rw [show rmatch (.seq .anyStar (classesRE ['a', 'b'])) "cd".data = false
      from rfl] at this
    exact Bool.noConfusion this

end Archelec
